import Mathlib

/-!
Verification of the unimodel aggregate sublanguage and base-model delegation.

The repository documents (README, spec) an aggregate specification sublanguage:
a normalizer for raw aggregate specs, a group-key resolver (discrete values,
numeric ranges, fixed intervals, calendar time components), a stats
accumulator, and a grouping engine.  The executable implementation of that
sublanguage lives outside this repository's source tree (the normalizer is
delegated to the external common-query package by
`SchemaModel.normalizeAggregate`, and the engine is implemented by each
backend); the definitions below for those components are therefore modelled
from the specification's own words.  The `find`/`findStream` delegation at the
bottom is embedded directly from `lib/base/model.js`.

Numeric field values are modelled as rationals.  Because the library's `Rat`
arithmetic operations are `@[irreducible]`, the executable definitions below
use `mkRat`-based arithmetic (`qAdd`, `qSub`, `qMulInt`, `qfloorDiv`), each
proved equal to the corresponding abstract operation.
-/

deriving instance DecidableEq for Except

/-! ## Executable rational arithmetic -/

/-- Addition on rationals through `mkRat`, so that concrete instances reduce. -/
def qAdd (a b : ℚ) : ℚ := mkRat (a.num * b.den + b.num * a.den) (a.den * b.den)

/-- Subtraction on rationals through `mkRat`. -/
def qSub (a b : ℚ) : ℚ := mkRat (a.num * b.den - b.num * a.den) (a.den * b.den)

/-- Multiplication of an integer by a rational through `mkRat`. -/
def qMulInt (z : ℤ) (b : ℚ) : ℚ := mkRat (z * b.num) b.den

/-- Floor of the quotient `a / b` of two rationals, computed on numerators and
denominators with integer euclidean division (exact for `0 < b`). -/
def qfloorDiv (a b : ℚ) : ℤ := (a.num * b.den) / ((a.den * b.num.toNat : ℕ) : ℤ)

theorem qAdd_eq (a b : ℚ) : qAdd a b = a + b := by
  rw [qAdd, Rat.mkRat_eq_div]
  have ha : ((a.den : ℚ)) ≠ 0 := by
    exact_mod_cast a.den_nz
  have hb : ((b.den : ℚ)) ≠ 0 := by
    exact_mod_cast b.den_nz
  conv_rhs => rw [← Rat.num_div_den a, ← Rat.num_div_den b]
  push_cast
  field_simp

theorem qSub_eq (a b : ℚ) : qSub a b = a - b := by
  rw [qSub, Rat.mkRat_eq_div]
  have ha : ((a.den : ℚ)) ≠ 0 := by
    exact_mod_cast a.den_nz
  have hb : ((b.den : ℚ)) ≠ 0 := by
    exact_mod_cast b.den_nz
  conv_rhs => rw [← Rat.num_div_den a, ← Rat.num_div_den b]
  push_cast
  field_simp
  ring

theorem qMulInt_eq (z : ℤ) (b : ℚ) : qMulInt z b = (z : ℚ) * b := by
  rw [qMulInt, Rat.mkRat_eq_div]
  have hb : ((b.den : ℚ)) ≠ 0 := by
    exact_mod_cast b.den_nz
  conv_rhs => rw [← Rat.num_div_den b]
  push_cast
  field_simp

theorem qfloorDiv_eq_floor (a b : ℚ) (hb : 0 < b) : qfloorDiv a b = ⌊a / b⌋ := by
  have hbnum : (0 : ℤ) < b.num := Rat.num_pos.mpr hb
  have ha : ((a.den : ℚ)) ≠ 0 := by
    exact_mod_cast a.den_nz
  have hbd : ((b.den : ℚ)) ≠ 0 := by
    exact_mod_cast b.den_nz
  have hbn : ((b.num : ℚ)) ≠ 0 := by
    exact_mod_cast hbnum.ne'
  have key : a / b = ((a.num * b.den : ℤ) : ℚ) / ((a.den * b.num.toNat : ℕ) : ℚ) := by
    have htn : (b.num.toNat : ℤ) = b.num := Int.toNat_of_nonneg hbnum.le
    have hq : ((b.num.toNat : ℕ) : ℚ) = ((b.num : ℤ) : ℚ) := by
      exact_mod_cast htn
    conv_lhs => rw [← Rat.num_div_den a, ← Rat.num_div_den b]
    push_cast [hq]
    field_simp
  rw [qfloorDiv, key, Rat.floor_intCast_div_natCast]

/-! ## Group-Key Resolver: fixed-size intervals

Modelled from the spec: `Interval`: numeric: `bucketIndex = floor((value -
base) / interval)`, `key = base + bucketIndex * interval`. -/

/-- Resolved key for an `Interval` group-by clause on a numeric value. -/
def intervalKey (i base v : ℚ) : ℚ := qAdd base (qMulInt (qfloorDiv (qSub v base) i) i)

theorem intervalKey_eq (i b v : ℚ) (hi : 0 < i) :
    intervalKey i b v = b + (⌊(v - b) / i⌋ : ℚ) * i := by
  rw [intervalKey, qAdd_eq, qMulInt_eq, qSub_eq, qfloorDiv_eq_floor _ _ hi]

/-! ## Group-Key Resolver: ranges

Modelled from the spec: find index `i` such that `ranges[i].start <= value <
ranges[i].end` treating missing `start` as negative infinity and missing `end`
as positive infinity; if none match, return `NO_GROUP` (here `none`). -/

/-- One half-open range `[start, stop)`; `stop` models the spec's `end` bound
(`end` is a reserved word).  A missing bound is unbounded. -/
structure RangeSpec where
  start : Option ℚ
  stop : Option ℚ
deriving DecidableEq

/-- The lower-bound test of a range: a missing start is negative infinity. -/
def lowerOk (b : Option ℚ) (v : ℚ) : Bool :=
  match b with
  | none => true
  | some s => decide (s ≤ v)

/-- The upper-bound test of a range: a missing end is positive infinity. -/
def upperOk (b : Option ℚ) (v : ℚ) : Bool :=
  match b with
  | none => true
  | some e => decide (v < e)

/-- Membership of a value in a half-open range, missing bounds unbounded. -/
def inRange (r : RangeSpec) (v : ℚ) : Bool :=
  lowerOk r.start v && upperOk r.stop v

/-- Linear scan for the first (hence, under the ascending invariant, the only)
range containing `v`; `none` is the spec's `NO_GROUP`. -/
def findRangeIndex : List RangeSpec → ℚ → Option Nat
  | [], _ => none
  | r :: rest, v =>
    if inRange r v then some 0 else (findRangeIndex rest v).map (· + 1)

/-- A range with both bounds present is non-degenerate: start at most end. -/
def rangeNondegenerate (r : RangeSpec) : Bool :=
  match r.start, r.stop with
  | some s, some e => decide (s ≤ e)
  | _, _ => true

/-- Two adjacent ranges are properly chained: the first has an explicit end,
the second an explicit start, and end at most next start. -/
def chainLink (r1 r2 : RangeSpec) : Bool :=
  match r1.stop, r2.start with
  | some e, some s => decide (e ≤ s)
  | _, _ => false

/-- Adjacent ranges are chained all along the list. -/
def rangesChain : List RangeSpec → Bool
  | [] => true
  | [_] => true
  | r1 :: r2 :: rest => chainLink r1 r2 && rangesChain (r2 :: rest)

/-- The spec's invariant that ranges are given in ascending, non-overlapping
order. -/
def rangesAscending (rs : List RangeSpec) : Bool :=
  rs.all rangeNondegenerate && rangesChain rs

/-- Modelled from the spec: the boundary-array shorthand `[b1, b2, ...]`
expands to ranges `(-inf,b1), [b1,b2), ..., [bn,+inf)`.  Helper carrying the
previous boundary. -/
def boundaryRangesFrom (prev : ℚ) : List ℚ → List RangeSpec
  | [] => [⟨some prev, none⟩]
  | b :: rest => ⟨some prev, some b⟩ :: boundaryRangesFrom b rest

/-- Modelled from the spec: expansion of the `ranges` boundary-array
shorthand during normalization. -/
def expandBoundaries : List ℚ → List RangeSpec
  | [] => []
  | b :: rest => ⟨none, some b⟩ :: boundaryRangesFrom b rest

/-! ## Calendar arithmetic for `TimeComponent`

Modelled from the spec: calendar-aligned buckets whose base point is the
epoch start of the calendar unit (year 1 for `year`, (year 1, month 1) for
`month`, and so on -- not the Unix epoch).  Instants are represented as
seconds elapsed since 0001-01-01T00:00:00Z in the proleptic Gregorian
calendar; a `Date` is a calendar day, its instant being its midnight. -/

/-- Gregorian leap-year rule. -/
def isLeapYear (y : Nat) : Bool :=
  (y % 4 == 0 && y % 100 != 0) || (y % 400 == 0)

/-- Days in month `m` (1-12) of year `y`. -/
def daysInMonth (y m : Nat) : Nat :=
  if m = 2 then (if isLeapYear y then 29 else 28)
  else if m = 4 ∨ m = 6 ∨ m = 9 ∨ m = 11 then 30
  else 31

/-- Days in year `y` strictly before month `m`. -/
def daysBeforeMonth (y : Nat) : Nat → Nat
  | 0 => 0
  | 1 => 0
  | m + 1 => daysBeforeMonth y m + daysInMonth y m

/-- Days strictly before year `y`, counted from 0001-01-01. -/
def daysBeforeYear (y : Nat) : Nat :=
  (y - 1) * 365 + (y - 1) / 4 - (y - 1) / 100 + (y - 1) / 400

/-- A calendar date (year, 1-based month, 1-based day). -/
structure Date where
  year : Nat
  month : Nat
  day : Nat
deriving DecidableEq

/-- Zero-based index of a date's day, counted from 0001-01-01. -/
def dayIndex (d : Date) : Nat :=
  daysBeforeYear d.year + daysBeforeMonth d.year d.month + (d.day - 1)

/-- Seconds elapsed at a date's midnight since 0001-01-01T00:00:00Z. -/
def dateSec (d : Date) : Nat := dayIndex d * 86400

/-- The calendar units of a `TimeComponent` group-by clause. -/
inductive TimeUnit
  | year
  | month
  | week
  | day
  | hour
  | minute
  | second
deriving DecidableEq

/-- Zero-based month index of a date, counted from (year 1, month 1). -/
def monthIndex (d : Date) : Nat := (d.year - 1) * 12 + (d.month - 1)

/-- First day of the month with the given zero-based month index. -/
def dateOfMonthIndex (i : Nat) : Date := ⟨i / 12 + 1, i % 12 + 1, 1⟩

/-- Modelled from the spec: truncate the value to the calendar unit, then
group raw units into buckets of width `c` units counted from the unit's
absolute epoch; the result is the instant (in seconds since year 1) at which
the bucket starts. -/
def timeBucketStartSec (u : TimeUnit) (c : Nat) (d : Date) : Nat :=
  match u with
  | .year => dateSec ⟨((d.year - 1) / c) * c + 1, 1, 1⟩
  | .month => dateSec (dateOfMonthIndex ((monthIndex d / c) * c))
  | .week => ((dayIndex d / 7 / c) * c * 7) * 86400
  | .day => ((dayIndex d / c) * c) * 86400
  | .hour => ((dayIndex d * 24 / c) * c) * 3600
  | .minute => ((dayIndex d * 1440 / c) * c) * 60
  | .second => (dayIndex d * 86400 / c) * c

/-! ## Records and values -/

/-- A field value of a record: absent/null, numeric, string, or date. -/
inductive Value
  | null
  | num (q : ℚ)
  | str (s : String)
  | date (d : Date)
deriving DecidableEq

/-- Whether a value is null/absent. -/
def Value.isNull : Value → Bool
  | .null => true
  | _ => false

/-- A record exposes field values by name; missing fields are absent. -/
abbrev Record := List (String × Value)

/-- Field lookup on a record; a missing field resolves to `Value.null`. -/
def getField (r : Record) (f : String) : Value :=
  match r.find? (fun p => p.1 == f) with
  | some p => p.2
  | none => .null

/-- Numeric view of a value, used by `Ranges` and `Interval` clauses; a date
is read as its instant. -/
def numericOf : Value → Option ℚ
  | .num q => some q
  | .date d => some (mkRat (dateSec d) 1)
  | _ => none

/-! ## Group-by clauses and key resolution -/

/-- Validation errors raised by the aggregate-spec normalizer. -/
inductive ValidationError
  | emptyField
  | unsortedRanges
  | nonPositiveInterval
  | badTimeComponentCount
  | emptyGroupBy
  | emptyStats
  | unknownType
deriving DecidableEq

/-- Errors of an aggregate invocation: a validation error surfaced by the
normalizer before any record is consumed, or a per-record type mismatch
(carrying the offending field path), fatal for the invocation. -/
inductive AggError
  | validation (e : ValidationError)
  | typeMismatch (field : String)
deriving DecidableEq

/-- A normalized group-by clause, one of the spec's four tagged variants. -/
inductive GroupByClause
  | discrete (field : String)
  | ranges (field : String) (rs : List RangeSpec)
  | interval (field : String) (i : ℚ) (base : ℚ)
  | timeComponent (field : String) (unit : TimeUnit) (count : Nat)
deriving DecidableEq

/-- The field a clause groups on. -/
def clauseField : GroupByClause → String
  | .discrete f => f
  | .ranges f _ => f
  | .interval f _ _ => f
  | .timeComponent f _ _ => f

/-- One component of a composite group key: the discrete value itself, a
zero-based range index, an interval bucket start, or a time-component bucket
start instant. -/
inductive KeyValue
  | disc (v : Value)
  | idx (i : Nat)
  | num (q : ℚ)
  | time (sec : Nat)
deriving DecidableEq

/-- Modelled from the spec: `resolveKey(clause, value)` computes the key
component for one clause, `none` being `NO_GROUP` (null/absent value, or a
value outside all ranges); a value that cannot be bucketed under the clause's
assumed type is a `TypeMismatchError`. -/
def resolveKey : GroupByClause → Value → Except AggError (Option KeyValue)
  | .discrete _, .null => .ok none
  | .discrete _, v => .ok (some (.disc v))
  | .ranges _ _, .null => .ok none
  | .ranges f rs, v =>
    match numericOf v with
    | some q => .ok ((findRangeIndex rs q).map .idx)
    | none => .error (.typeMismatch f)
  | .interval _ _ _, .null => .ok none
  | .interval f i b, v =>
    match numericOf v with
    | some q => .ok (some (.num (intervalKey i b q)))
    | none => .error (.typeMismatch f)
  | .timeComponent _ _ _, .null => .ok none
  | .timeComponent _ u c, .date d => .ok (some (.time (timeBucketStartSec u c d)))
  | .timeComponent f _ _, _ => .error (.typeMismatch f)

/-! ## Aggregate engine (grouping with totals)

Modelled from the spec: maintain a mapping from composite key (tuple of key
components, in clause order) to a total counter, created lazily on first
sighting of that key, in first-seen order; a record any of whose clauses
yields `NO_GROUP` is skipped entirely; a per-record resolution error is fatal
for the invocation. -/

/-- Resolve the composite key of a record across all clauses, in clause
order; `none` if any clause yields `NO_GROUP`. -/
def resolveRecordKey : List GroupByClause → Record → Except AggError (Option (List KeyValue))
  | [], _ => .ok (some [])
  | c :: rest, r =>
    match resolveKey c (getField r (clauseField c)), resolveRecordKey rest r with
    | .error e, _ => .error e
    | .ok _, .error e => .error e
    | .ok none, .ok _ => .ok none
    | .ok (some _), .ok none => .ok none
    | .ok (some k), .ok (some ks) => .ok (some (k :: ks))

/-- Increment the total of the group keyed `k`, appending a fresh group in
first-seen order when the key is new. -/
def bump : List (List KeyValue × Nat) → List KeyValue → List (List KeyValue × Nat)
  | [], k => [(k, 1)]
  | (k2, n) :: rest, k =>
    if k2 = k then (k2, n + 1) :: rest else (k2, n) :: bump rest k

/-- Route one record into the group map. -/
def ingestRecord (cs : List GroupByClause) (gs : List (List KeyValue × Nat))
    (r : Record) : Except AggError (List (List KeyValue × Nat)) :=
  match resolveRecordKey cs r with
  | .error e => .error e
  | .ok none => .ok gs
  | .ok (some k) => .ok (bump gs k)

/-- Fold the records into the group map, stopping at the first error. -/
def runGroupsFrom (cs : List GroupByClause) (gs : List (List KeyValue × Nat)) :
    List Record → Except AggError (List (List KeyValue × Nat))
  | [] => .ok gs
  | r :: rest =>
    match ingestRecord cs gs r with
    | .error e => .error e
    | .ok gs2 => runGroupsFrom cs gs2 rest

/-- Group a record sequence by the given clauses, producing each group's
composite key and total, in first-seen order. -/
def runGroups (cs : List GroupByClause) (rs : List Record) :
    Except AggError (List (List KeyValue × Nat)) :=
  runGroupsFrom cs [] rs

/-! ## Stats accumulator: `count`

Modelled from the spec: `count` increments iff the ingested value is
non-null/defined; one ingest per matched record. -/

/-- One ingest step of the `count` accumulator. -/
def countIngest (c : Nat) (v : Value) : Nat := if v.isNull then c else c + 1

/-- Rendered `count` for field `f` over a record sequence. -/
def renderCount (f : String) (rs : List Record) : Nat :=
  rs.foldl (fun c r => countIngest c (getField r f)) 0

/-! ## Aggregate Spec Normalizer

Modelled from the spec: `normalize(raw) -> AggregateSpec`, pure and
deterministic, failing with a `ValidationError` on malformed input.  Rule 1
infers the missing `type` discriminator (`group` iff `groupBy` is present);
rule 2 expands the shorthands (bare-string `stats`, bare-string/object
`groupBy`, boundary-array `ranges`, default interval base 0, default
`timeComponentCount` 1); rule 3 validates (non-empty field paths, ascending
non-overlapping ranges, positive interval, `timeComponentCount >= 1`,
`groupBy` non-empty, `stats` non-empty unless `total`).  Raw specs are closed
record types, so the unknown-top-level-key rule is vacuous here. -/

/-- The per-field stat request flags. -/
structure StatRequest where
  count : Bool := false
  avg : Bool := false
  min : Bool := false
  max : Bool := false
deriving DecidableEq

/-- A raw `stats` entry: the bare field-name shorthand or a field map. -/
inductive RawStats
  | str (field : String)
  | fields (m : List (String × StatRequest))
deriving DecidableEq

/-- A raw `ranges` entry: the boundary-array shorthand or explicit ranges. -/
inductive RawRanges
  | bounds (bs : List ℚ)
  | ranges (rs : List RangeSpec)
deriving DecidableEq

/-- A raw group-by clause: a field plus the optional keys distinguishing the
clause kind. -/
structure RawGroupClause where
  field : String := ""
  ranges : Option RawRanges := none
  interval : Option ℚ := none
  base : Option ℚ := none
  timeComponent : Option TimeUnit := none
  timeComponentCount : Option Nat := none
deriving DecidableEq

/-- A raw `groupBy` entry: bare string, single clause, or clause list. -/
inductive RawGroupBy
  | str (field : String)
  | clause (c : RawGroupClause)
  | list (cs : List RawGroupClause)
deriving DecidableEq

/-- A raw aggregate spec as handed to the normalizer. -/
structure RawAggregate where
  type : Option String := none
  stats : Option RawStats := none
  groupBy : Option RawGroupBy := none
  total : Bool := false
deriving DecidableEq

/-- Canonicalize a raw ranges entry: expand the boundary-array shorthand. -/
def canonRanges : RawRanges → RawRanges
  | .bounds bs => .ranges (expandBoundaries bs)
  | .ranges rs => .ranges rs

/-- Canonicalize one group-by clause: expand ranges, fill the default
numeric interval base 0 and the default `timeComponentCount` 1. -/
def canonClause (c : RawGroupClause) : RawGroupClause :=
  { field := c.field
    ranges := c.ranges.map canonRanges
    interval := c.interval
    base := if c.interval.isSome then some (c.base.getD 0) else c.base
    timeComponent := c.timeComponent
    timeComponentCount :=
      if c.timeComponent.isSome then some (c.timeComponentCount.getD 1)
      else c.timeComponentCount }

/-- Canonicalize a `stats` entry: the bare string becomes a count request. -/
def canonStats : RawStats → RawStats
  | .str f => .fields [(f, { count := true })]
  | .fields m => .fields m

/-- Canonicalize a `groupBy` entry: wrap into a clause list. -/
def canonGroupBy : RawGroupBy → RawGroupBy
  | .str f => .list [{ field := f }]
  | .clause c => .list [canonClause c]
  | .list cs => .list (cs.map canonClause)

/-- Rule 1: infer the missing type discriminator. -/
def inferType (r : RawAggregate) : String :=
  if r.groupBy.isSome then "group" else "stats"

/-- Canonicalization pass of the normalizer (rules 1 and 2). -/
def canonAggregate (r : RawAggregate) : RawAggregate :=
  { type := some (r.type.getD (inferType r))
    stats := r.stats.map canonStats
    groupBy := r.groupBy.map canonGroupBy
    total := r.total }

/-- Validate one clause (rule 3): non-empty field path, ascending
non-overlapping ranges, positive interval, `timeComponentCount >= 1`. -/
def validateClause (c : RawGroupClause) : Option ValidationError :=
  if c.field == "" then some .emptyField
  else if !(match c.ranges with
            | none => true
            | some (.bounds bs) => rangesAscending (expandBoundaries bs)
            | some (.ranges rs) => rangesAscending rs) then some .unsortedRanges
  else if !(match c.interval with
            | none => true
            | some i => decide (0 < i)) then some .nonPositiveInterval
  else if !(match c.timeComponentCount with
            | none => true
            | some n => decide (1 ≤ n)) then some .badTimeComponentCount
  else none

/-- First validation error among a clause list. -/
def firstClauseError : List RawGroupClause → Option ValidationError
  | [] => none
  | c :: rest =>
    match validateClause c with
    | some e => some e
    | none => firstClauseError rest

/-- Validate a `groupBy` entry. -/
def validateGroupBy : RawGroupBy → Option ValidationError
  | .str f => if f == "" then some .emptyField else none
  | .clause c => validateClause c
  | .list cs => if cs.isEmpty then some .emptyGroupBy else firstClauseError cs

/-- Validate a `stats` entry. -/
def validateStats : RawStats → Option ValidationError
  | .str f => if f == "" then some .emptyField else none
  | .fields m =>
    if m.isEmpty then some .emptyStats
    else if m.any (fun p => p.1 == "") then some .emptyField
    else none

/-- Validation pass of the normalizer (rules 1 and 3 on the canonical
form). -/
def validateAggregate (r : RawAggregate) : Option ValidationError :=
  match (match r.stats with
         | none => none
         | some s => validateStats s) with
  | some e => some e
  | none =>
    match (match r.groupBy with
           | none => none
           | some g => validateGroupBy g) with
    | some e => some e
    | none =>
      match r.type with
      | some t =>
        if t == "group" then
          (if r.groupBy.isSome then none else some .emptyGroupBy)
        else if t == "stats" then
          (if r.stats.isSome || r.total then none else some .emptyStats)
        else some .unknownType
      | none => some .unknownType

/-- Modelled from the spec: the aggregate-spec normalizer delegated to by
`SchemaModel.normalizeAggregate` (the implementation lives in the external
common-query package).  Canonicalizes, then validates. -/
def normalizeAggregate (raw : RawAggregate) : Except ValidationError RawAggregate :=
  let c := canonAggregate raw
  match validateAggregate c with
  | some e => .error e
  | none => .ok c

/-- Interpretation of a (canonical) raw clause as a normalized clause. -/
def clauseOfRaw (c : RawGroupClause) : GroupByClause :=
  match c.interval with
  | some i => .interval c.field i (c.base.getD 0)
  | none =>
    match c.timeComponent with
    | some u => .timeComponent c.field u (c.timeComponentCount.getD 1)
    | none =>
      match c.ranges with
      | some (.ranges rs) => .ranges c.field rs
      | some (.bounds bs) => .ranges c.field (expandBoundaries bs)
      | none => .discrete c.field

/-- The clause list of a normalized aggregate spec. -/
def clausesOf (a : RawAggregate) : List GroupByClause :=
  match a.groupBy with
  | some (.list cs) => cs.map clauseOfRaw
  | some (.clause c) => [clauseOfRaw c]
  | some (.str f) => [.discrete f]
  | none => []

/-- Modelled from the spec: an aggregate invocation normalizes the raw spec
first -- a malformed spec surfaces as a `ValidationError` before any record
is consumed -- and only then folds the records through the engine, where a
per-record resolution error is a fatal `TypeMismatchError`. -/
def runAggregate (raw : RawAggregate) (records : List Record) :
    Except AggError (List (List KeyValue × Nat)) :=
  match normalizeAggregate raw with
  | .error e => .error (.validation e)
  | .ok spec => runGroups (clausesOf spec) records

/-! ## Base model: `find`, `findStream` and their mutual defaults

Embedded from `lib/base/model.js` and `lib/base/fake-document-stream.js`.  A
subclass is modelled by which of the two methods it overrides
(`findImpl`/`findStreamImpl` of `some ...` corresponds to the JS prototype
check `this.findStream !== Model.prototype.findStream`).  An overriding
`find` resolves with a document array; an overriding `findStream` returns a
document stream, whose `getTotal()` the base class consumes.  The default
`find` body is the promise chain: collect the stream into an array, then --
when `options.total` is truthy -- fetch `getTotal()`, set `array.total`, and
resolve with `total` itself (the number, not the array). -/

/-- The error codes of XError relevant to the base model. -/
inductive XErr
  | unsupportedOperation
  | custom (msg : String)
deriving DecidableEq

/-- The standard options of `find()` used by the default implementations. -/
structure FindOptions where
  skip : Nat := 0
  limit : Option Nat := none
  total : Bool := false
deriving DecidableEq

/-- A document stream as returned by an overriding `findStream`: a readable
object stream of documents with a `getTotal()` method. -/
structure DocumentStreamModel (Doc : Type) where
  docs : List Doc
  streamTotal : Nat
deriving DecidableEq

/-- The stream's `getTotal()`: resolves with the total result count. -/
def DocumentStreamModel.getTotal {Doc : Type} (s : DocumentStreamModel Doc) : Nat :=
  s.streamTotal

/-- What a call to `find` resolves with: an array of documents, or -- in the
default implementation's `options.total` branch -- the bare number returned
by `return total`. -/
inductive FindResult (Doc : Type)
  | docs (arr : List Doc)
  | totalNum (n : Nat)
deriving DecidableEq

/-- A `Model` subclass, identified by which of `find`/`findStream` it
overrides. -/
structure ModelImpl (Query Doc : Type) where
  findImpl : Option (Query → FindOptions → Except XErr (List Doc))
  findStreamImpl : Option (Query → FindOptions → DocumentStreamModel Doc)

/-- Embedded from `Model.prototype.find`: an override wins; otherwise, if
`findStream` is overridden, collect its stream into an array and -- if
`options.total` -- resolve with the stream's `getTotal()` number; if neither
method is overridden, throw an `UNSUPPORTED_OPERATION` XError. -/
def ModelImpl.find {Query Doc : Type} (m : ModelImpl Query Doc) (q : Query)
    (o : FindOptions) : Except XErr (FindResult Doc) :=
  match m.findImpl with
  | some f => (f q o).map .docs
  | none =>
    match m.findStreamImpl with
    | some fs =>
      if o.total then .ok (.totalNum (fs q o).getTotal)
      else .ok (.docs (fs q o).docs)
    | none => .error .unsupportedOperation

/-- Embedded from `Model.prototype.findStream` and
`FakeDocumentStream._read`: the observable content of the stream returned by
`findStream`.  An override streams its own documents; the default wraps the
model in a `FakeDocumentStream` whose `_read` calls `this.find` -- which
dispatches to the `find` override when present and otherwise (both methods
missing) throws `UNSUPPORTED_OPERATION`. -/
def ModelImpl.findStreamCollect {Query Doc : Type} (m : ModelImpl Query Doc)
    (q : Query) (o : FindOptions) : Except XErr (List Doc) :=
  match m.findStreamImpl with
  | some fs => .ok (fs q o).docs
  | none =>
    match m.findImpl with
    | some f => f q o
    | none => .error .unsupportedOperation

/-! ## Lemmas: uniqueness of range resolution -/

theorem chainLink_spec {r1 r2 : RangeSpec} (h : chainLink r1 r2 = true) :
    ∃ e s, r1.stop = some e ∧ r2.start = some s ∧ e ≤ s := by
  cases he : r1.stop with
  | none => simp [chainLink, he] at h
  | some e =>
    cases hs : r2.start with
    | none => simp [chainLink, he, hs] at h
    | some s =>
      simp [chainLink, he, hs] at h
      exact ⟨e, s, rfl, rfl, h⟩

theorem rangesChain_tail {r : RangeSpec} {rs : List RangeSpec}
    (h : rangesChain (r :: rs) = true) : rangesChain rs = true := by
  cases rs with
  | nil => rfl
  | cons r2 rt =>
    simp [rangesChain] at h
    exact h.2

theorem rangesChain_head {r r2 : RangeSpec} {rt : List RangeSpec}
    (h : rangesChain (r :: r2 :: rt) = true) : chainLink r r2 = true := by
  simp [rangesChain] at h
  exact h.1

theorem inRange_upper {r : RangeSpec} {v e : ℚ} (he : r.stop = some e)
    (h : inRange r v = true) : v < e := by
  simp [inRange, upperOk, he] at h
  exact h.2

theorem inRange_false_of_lt {r : RangeSpec} {v s : ℚ} (hs : r.start = some s)
    (hv : v < s) : inRange r v = false := by
  have hd : decide (s ≤ v) = false := decide_eq_false (not_le.mpr hv)
  simp [inRange, lowerOk, hs, hd]

theorem nondegenerate_spec {r : RangeSpec} {s e : ℚ} (h : rangeNondegenerate r = true)
    (hs : r.start = some s) (he : r.stop = some e) : s ≤ e := by
  simp [rangeNondegenerate, hs, he] at h
  exact h

theorem notInRange_of_before : ∀ (rest : List RangeSpec) (r2 : RangeSpec) (s2 v : ℚ),
    rangesChain (r2 :: rest) = true →
    (∀ x ∈ r2 :: rest, rangeNondegenerate x = true) →
    r2.start = some s2 → v < s2 →
    ∀ r3 ∈ r2 :: rest, inRange r3 v = false := by
  intro rest
  induction rest with
  | nil =>
    intro r2 s2 v _ _ hs hv r3 hr3
    simp at hr3
    subst hr3
    exact inRange_false_of_lt hs hv
  | cons rh rt ih =>
    intro r2 s2 v hchain hnd hs hv r3 hr3
    obtain ⟨e2, sh, he2, hsh, hlesh⟩ := chainLink_spec (rangesChain_head hchain)
    have hs2e2 : s2 ≤ e2 := nondegenerate_spec (hnd r2 (by simp)) hs he2
    have hvsh : v < sh := lt_of_lt_of_le hv (le_trans hs2e2 hlesh)
    rcases List.mem_cons.mp hr3 with rfl | hr3
    · exact inRange_false_of_lt hs hv
    · exact ih rh sh v (rangesChain_tail hchain)
        (fun x hx => hnd x (List.mem_cons_of_mem _ hx)) hsh hvsh r3 hr3

theorem inRange_head_excludes_tail (rs : List RangeSpec) (r : RangeSpec) (v : ℚ)
    (hchain : rangesChain (r :: rs) = true)
    (hnd : ∀ x ∈ r :: rs, rangeNondegenerate x = true)
    (hin : inRange r v = true) :
    ∀ x ∈ rs, inRange x v = false := by
  intro x hx
  cases rs with
  | nil => simp at hx
  | cons r2 rt =>
    obtain ⟨e, s, he, hs, hes⟩ := chainLink_spec (rangesChain_head hchain)
    have hvs : v < s := lt_of_lt_of_le (inRange_upper he hin) hes
    exact notInRange_of_before rt r2 s v (rangesChain_tail hchain)
      (fun y hy => hnd y (List.mem_cons_of_mem _ hy)) hs hvs x hx

theorem rangesAscending_parts {rs : List RangeSpec} (h : rangesAscending rs = true) :
    (∀ x ∈ rs, rangeNondegenerate x = true) ∧ rangesChain rs = true := by
  simp [rangesAscending, List.all_eq_true] at h
  exact h

theorem rangesAscending_tail {r : RangeSpec} {rs : List RangeSpec}
    (h : rangesAscending (r :: rs) = true) : rangesAscending rs = true := by
  obtain ⟨hnd, hch⟩ := rangesAscending_parts h
  have h1 : rs.all rangeNondegenerate = true := by
    rw [List.all_eq_true]
    exact fun x hx => hnd x (List.mem_cons_of_mem _ hx)
  rw [rangesAscending, h1, rangesChain_tail hch]
  rfl

theorem inRange_index_unique : ∀ (rs : List RangeSpec), rangesAscending rs = true →
    ∀ (v : ℚ) (i j : Nat) (hi : i < rs.length) (hj : j < rs.length),
    inRange (rs.get ⟨i, hi⟩) v = true → inRange (rs.get ⟨j, hj⟩) v = true → i = j := by
  intro rs
  induction rs with
  | nil =>
    intro _ v i j hi
    simp at hi
  | cons r rt ih =>
    intro hasc v i j hi hj hir hjr
    obtain ⟨hnd, hch⟩ := rangesAscending_parts hasc
    match i, j with
    | 0, 0 => rfl
    | 0, j + 1 =>
      exfalso
      have hj2 : j < rt.length := Nat.lt_of_succ_lt_succ hj
      have hmem : rt.get ⟨j, hj2⟩ ∈ rt := List.get_mem rt j hj2
      have hfalse := inRange_head_excludes_tail rt r v hch hnd hir _ hmem
      have hjr2 : inRange (rt.get ⟨j, hj2⟩) v = true := hjr
      rw [hfalse] at hjr2
      simp at hjr2
    | i + 1, 0 =>
      exfalso
      have hi2 : i < rt.length := Nat.lt_of_succ_lt_succ hi
      have hmem : rt.get ⟨i, hi2⟩ ∈ rt := List.get_mem rt i hi2
      have hfalse := inRange_head_excludes_tail rt r v hch hnd hjr _ hmem
      have hir2 : inRange (rt.get ⟨i, hi2⟩) v = true := hir
      rw [hfalse] at hir2
      simp at hir2
    | i + 1, j + 1 =>
      have := ih (rangesAscending_tail hasc) v i j
        (Nat.lt_of_succ_lt_succ hi) (Nat.lt_of_succ_lt_succ hj) hir hjr
      omega

theorem findRangeIndex_some : ∀ (rs : List RangeSpec) (v : ℚ) (i : Nat),
    findRangeIndex rs v = some i →
    ∃ h : i < rs.length, inRange (rs.get ⟨i, h⟩) v = true := by
  intro rs
  induction rs with
  | nil =>
    intro v i h
    simp [findRangeIndex] at h
  | cons r rt ih =>
    intro v i h
    by_cases hr : inRange r v = true
    · simp [findRangeIndex, hr] at h
      subst h
      exact ⟨Nat.succ_pos _, hr⟩
    · simp [findRangeIndex, hr] at h
      cases hf : findRangeIndex rt v with
      | none =>
        rw [hf] at h
        simp at h
      | some i2 =>
        rw [hf] at h
        simp at h
        subst h
        obtain ⟨hlt, hin⟩ := ih v i2 hf
        exact ⟨Nat.succ_lt_succ hlt, hin⟩

theorem findRangeIndex_none : ∀ (rs : List RangeSpec) (v : ℚ),
    findRangeIndex rs v = none → ∀ r ∈ rs, inRange r v = false := by
  intro rs
  induction rs with
  | nil =>
    intro v _ r hr
    simp at hr
  | cons r0 rt ih =>
    intro v h r hr
    by_cases hr0 : inRange r0 v = true
    · simp [findRangeIndex, hr0] at h
    · simp [findRangeIndex, hr0] at h
      rcases List.mem_cons.mp hr with rfl | hmem
      · exact eq_false_of_ne_true hr0
      · exact ih v h r hmem

/-! ## Lemmas: engine key lengths -/

theorem resolveRecordKey_length : ∀ (cs : List GroupByClause) (r : Record) (ks : List KeyValue),
    resolveRecordKey cs r = .ok (some ks) → ks.length = cs.length := by
  intro cs
  induction cs with
  | nil =>
    intro r ks h
    simp [resolveRecordKey] at h
    subst h
    rfl
  | cons c rest ih =>
    intro r ks h
    rw [resolveRecordKey] at h
    cases h1 : resolveKey c (getField r (clauseField c)) with
    | error e =>
      rw [h1] at h
      simp at h
    | ok k2 =>
      cases h2 : resolveRecordKey rest r with
      | error e =>
        rw [h1, h2] at h
        cases k2 <;> simp at h
      | ok ks2 =>
        rw [h1, h2] at h
        cases k2 with
        | none => simp at h
        | some k =>
          cases ks2 with
          | none => simp at h
          | some kt =>
            simp at h
            subst h
            simp [List.length_cons, ih r kt h2]

theorem bump_key_prop (p : List KeyValue → Prop) :
    ∀ (gs : List (List KeyValue × Nat)) (k : List KeyValue),
    (∀ e ∈ gs, p e.1) → p k → ∀ e ∈ bump gs k, p e.1 := by
  intro gs
  induction gs with
  | nil =>
    intro k _ hk e he
    simp [bump] at he
    subst he
    exact hk
  | cons g rest ih =>
    intro k hall hk e he
    by_cases hg : g.1 = k
    · rw [bump, if_pos hg] at he
      rcases List.mem_cons.mp he with rfl | hmem
      · exact hall g (by simp)
      · exact hall e (List.mem_cons_of_mem _ hmem)
    · rw [bump, if_neg hg] at he
      rcases List.mem_cons.mp he with rfl | hmem
      · exact hall g (by simp)
      · exact ih k (fun x hx => hall x (List.mem_cons_of_mem _ hx)) hk e hmem

theorem runGroupsFrom_key_length : ∀ (cs : List GroupByClause) (rs : List Record)
    (gs out : List (List KeyValue × Nat)),
    (∀ e ∈ gs, e.1.length = cs.length) →
    runGroupsFrom cs gs rs = .ok out →
    ∀ e ∈ out, e.1.length = cs.length := by
  intro cs rs
  induction rs with
  | nil =>
    intro gs out hinv h
    simp [runGroupsFrom] at h
    subst h
    exact hinv
  | cons r rest ih =>
    intro gs out hinv h
    rw [runGroupsFrom] at h
    cases h1 : ingestRecord cs gs r with
    | error e =>
      rw [h1] at h
      simp at h
    | ok gs2 =>
      rw [h1] at h
      have hinv2 : ∀ e ∈ gs2, e.1.length = cs.length := by
        rw [ingestRecord] at h1
        cases h2 : resolveRecordKey cs r with
        | error e =>
          rw [h2] at h1
          simp at h1
        | ok k2 =>
          rw [h2] at h1
          cases k2 with
          | none =>
            simp at h1
            subst h1
            exact hinv
          | some k =>
            simp at h1
            subst h1
            exact bump_key_prop (fun ks => ks.length = cs.length) gs k hinv
              (resolveRecordKey_length cs r k h2)
      exact ih gs2 out hinv2 h

/-! ## Lemmas: count accumulator -/

theorem renderCount_foldl (f : String) :
    ∀ (rs : List Record) (c : Nat),
    rs.foldl (fun c2 r => countIngest c2 (getField r f)) c =
      c + (rs.filter (fun r => !(getField r f).isNull)).length := by
  intro rs
  induction rs with
  | nil =>
    intro c
    simp
  | cons r rest ih =>
    intro c
    rw [List.foldl_cons, List.filter_cons]
    by_cases hn : (getField r f).isNull = true
    · have hstep : countIngest c (getField r f) = c := by
        simp [countIngest, hn]
      rw [hstep, ih]
      simp [hn]
    · have hn2 : (getField r f).isNull = false := eq_false_of_ne_true hn
      have hstep : countIngest c (getField r f) = c + 1 := by
        simp [countIngest, hn2]
      rw [hstep, ih]
      simp [hn2]
      omega

theorem renderCount_eq_filter (f : String) (rs : List Record) :
    renderCount f rs = (rs.filter (fun r => !(getField r f).isNull)).length := by
  rw [renderCount, renderCount_foldl]
  omega

/-! ## Lemmas: normalizer idempotence -/

theorem canonRanges_idem (rr : RawRanges) : canonRanges (canonRanges rr) = canonRanges rr := by
  cases rr <;> rfl

theorem canonClause_idem (c : RawGroupClause) : canonClause (canonClause c) = canonClause c := by
  unfold canonClause
  cases hr : c.ranges <;> cases hi : c.interval <;> cases ht : c.timeComponent <;>
    simp [canonRanges_idem]

theorem canonStats_idem (s : RawStats) : canonStats (canonStats s) = canonStats s := by
  cases s <;> rfl

theorem mapCanonClause_idem : ∀ cs : List RawGroupClause,
    (cs.map canonClause).map canonClause = cs.map canonClause := by
  intro cs
  induction cs with
  | nil => rfl
  | cons c rest ih => rw [List.map_cons, List.map_cons, canonClause_idem, ih]

theorem canonGroupBy_idem (g : RawGroupBy) : canonGroupBy (canonGroupBy g) = canonGroupBy g := by
  cases g with
  | str f => rfl
  | clause c => simp [canonGroupBy, List.map_cons, canonClause_idem]
  | list cs =>
    have h := mapCanonClause_idem cs
    simp only [canonGroupBy]
    rw [h]

theorem canonAggregate_idem (r : RawAggregate) :
    canonAggregate (canonAggregate r) = canonAggregate r := by
  unfold canonAggregate
  cases hs : r.stats <;> cases hg : r.groupBy <;>
    simp [canonStats_idem, canonGroupBy_idem]

/-! ## Claim theorems -/

/-- Claim C1: for a TimeComponent groupBy clause with field `dateFound`,
timeComponent `day` and timeComponentCount 2, records dated 2012-01-01,
2012-01-02 and 2012-01-04 are grouped into exactly two groups: one keyed by
the instant of 2012-01-01 with total 2 (days 1-2) and one keyed by
2012-01-03 with total 1 (day 4 falls in the bucket [01-03, 01-05)), in
first-seen order; and bucket boundaries are counted from the calendar unit's
absolute epoch (year 1 for `year`), not the Unix epoch: with unit `year` and
count 2, a date in 2012 buckets at year 2011, not at year 2012 = 1970 +
((2012 - 1970) / 2) * 2 as Unix-epoch alignment would give. -/
theorem c1_timeComponent_day_buckets :
    runGroups [.timeComponent "dateFound" .day 2]
      [[("dateFound", Value.date ⟨2012, 1, 1⟩)],
       [("dateFound", Value.date ⟨2012, 1, 2⟩)],
       [("dateFound", Value.date ⟨2012, 1, 4⟩)]] =
    .ok [([KeyValue.time (dateSec ⟨2012, 1, 1⟩)], 2),
         ([KeyValue.time (dateSec ⟨2012, 1, 3⟩)], 1)] ∧
    timeBucketStartSec .year 2 ⟨2012, 5, 15⟩ = dateSec ⟨2011, 1, 1⟩ ∧
    timeBucketStartSec .year 2 ⟨2012, 5, 15⟩ ≠
      dateSec ⟨1970 + (2012 - 1970) / 2 * 2, 1, 1⟩ :=
  ⟨by decide, by decide, by decide⟩

/-- Claim C2: for every Interval groupBy clause with numeric interval I > 0
and base B, and every numeric field value v, the resolved group key equals
B + floor((v - B) / I) * I, and therefore always satisfies
key <= v < key + I. -/
theorem c2_interval_round_trip (f : String) (I B v : ℚ) (hI : 0 < I) :
    resolveKey (.interval f I B) (.num v) = .ok (some (.num (intervalKey I B v))) ∧
    intervalKey I B v = B + (⌊(v - B) / I⌋ : ℚ) * I ∧
    intervalKey I B v ≤ v ∧ v < intervalKey I B v + I := by
  refine ⟨rfl, intervalKey_eq I B v hI, ?_, ?_⟩
  · rw [intervalKey_eq I B v hI]
    have h := Int.floor_le ((v - B) / I)
    have h2 := mul_le_mul_of_nonneg_right h hI.le
    rw [div_mul_cancel₀ _ (ne_of_gt hI)] at h2
    linarith
  · rw [intervalKey_eq I B v hI]
    have h := Int.lt_floor_add_one ((v - B) / I)
    have h2 := mul_lt_mul_of_pos_right h hI
    rw [div_mul_cancel₀ _ (ne_of_gt hI)] at h2
    linarith

/-- Witness for C2 at the concrete clause interval 3, base 1, value 5. -/
theorem c2_interval_round_trip_witness :
    (0 : ℚ) < 3 ∧
    (resolveKey (.interval "age" 3 1) (.num 5) =
        .ok (some (.num (intervalKey 3 1 5))) ∧
      intervalKey 3 1 5 = 1 + (⌊((5 : ℚ) - 1) / 3⌋ : ℚ) * 3 ∧
      intervalKey 3 1 5 ≤ 5 ∧ (5 : ℚ) < intervalKey 3 1 5 + 3) :=
  ⟨by decide, c2_interval_round_trip "age" 3 1 5 (by decide)⟩

/-- Claim C3: for every Ranges groupBy clause whose ranges are ascending and
non-overlapping, every input value resolves to exactly one zero-based range
index or to NO_GROUP: no value ever matches two ranges (missing start is
negative infinity, missing end positive infinity), a resolved index is a
matching range, and a value outside all ranges yields NO_GROUP. -/
theorem c3_ranges_resolve_unique (rs : List RangeSpec)
    (h : rangesAscending rs = true) (v : ℚ) :
    (∀ (i j : Nat) (hi : i < rs.length) (hj : j < rs.length),
        inRange (rs.get ⟨i, hi⟩) v = true →
        inRange (rs.get ⟨j, hj⟩) v = true → i = j) ∧
    (∀ i : Nat, findRangeIndex rs v = some i →
        ∃ hi : i < rs.length, inRange (rs.get ⟨i, hi⟩) v = true) ∧
    (findRangeIndex rs v = none → ∀ r ∈ rs, inRange r v = false) :=
  ⟨fun i j hi hj => inRange_index_unique rs h v i j hi hj,
   fun i => findRangeIndex_some rs v i,
   findRangeIndex_none rs v⟩

/-- Witness for C3 on the expanded boundary ranges of [1, 3, 9] at value 9. -/
theorem c3_ranges_resolve_unique_witness :
    rangesAscending (expandBoundaries [1, 3, 9]) = true ∧
    ((∀ (i j : Nat) (hi : i < (expandBoundaries [1, 3, 9]).length)
        (hj : j < (expandBoundaries [1, 3, 9]).length),
        inRange ((expandBoundaries [1, 3, 9]).get ⟨i, hi⟩) 9 = true →
        inRange ((expandBoundaries [1, 3, 9]).get ⟨j, hj⟩) 9 = true → i = j) ∧
      (∀ i : Nat, findRangeIndex (expandBoundaries [1, 3, 9]) 9 = some i →
        ∃ hi : i < (expandBoundaries [1, 3, 9]).length,
          inRange ((expandBoundaries [1, 3, 9]).get ⟨i, hi⟩) 9 = true) ∧
      (findRangeIndex (expandBoundaries [1, 3, 9]) 9 = none →
        ∀ r ∈ expandBoundaries [1, 3, 9], inRange r 9 = false)) :=
  ⟨by decide, c3_ranges_resolve_unique (expandBoundaries [1, 3, 9]) (by decide) 9⟩

/-- Claim C4: the boundary-array shorthand ranges [1, 3, 9] expands during
normalization to the four half-open ranges end 1, [1, 3), [3, 9), start 9,
and a record with field value exactly 9 resolves to range index 3, because
each range's end bound is exclusive. -/
theorem c4_boundary_shorthand :
    expandBoundaries [1, 3, 9] =
      [⟨none, some 1⟩, ⟨some 1, some 3⟩, ⟨some 3, some 9⟩, ⟨some 9, none⟩] ∧
    resolveKey (.ranges "age" (expandBoundaries [1, 3, 9])) (.num 9) =
      .ok (some (.idx 3)) :=
  ⟨by decide, by decide⟩

/-- Claim C5: for every grouped aggregate, every entry of the result has a
key whose length equals the number of groupBy clauses (one key component per
clause, in clause order), and entries appear in first-seen insertion order
(the engine applies no sort or limit); in particular grouping by
animalType and age in intervals of 4 over the records (dog, 2), (dog, 5),
(cat, 1) yields exactly the entries (dog, 0), (dog, 4), (cat, 0), each with
total 1, in that order. -/
theorem c5_key_length_and_order :
    (∀ (cs : List GroupByClause) (rs : List Record)
        (out : List (List KeyValue × Nat)) (e : List KeyValue × Nat),
        runGroups cs rs = .ok out → e ∈ out → e.1.length = cs.length) ∧
    runGroups [.discrete "animalType", .interval "age" 4 0]
      [[("animalType", Value.str "dog"), ("age", Value.num 2)],
       [("animalType", Value.str "dog"), ("age", Value.num 5)],
       [("animalType", Value.str "cat"), ("age", Value.num 1)]] =
    .ok [([KeyValue.disc (Value.str "dog"), KeyValue.num 0], 1),
         ([KeyValue.disc (Value.str "dog"), KeyValue.num 4], 1),
         ([KeyValue.disc (Value.str "cat"), KeyValue.num 0], 1)] := by
  constructor
  · intro cs rs out e hrun he
    rw [runGroups] at hrun
    exact runGroupsFrom_key_length cs rs [] out (by simp) hrun e he
  · decide

/-- Witness for C5: the first entry of the concrete two-clause scenario has
a key of length two. -/
theorem c5_key_length_and_order_witness :
    ([KeyValue.disc (Value.str "dog"), KeyValue.num 0], 1).1.length =
      ([GroupByClause.discrete "animalType",
        GroupByClause.interval "age" 4 0] : List GroupByClause).length :=
  c5_key_length_and_order.1
    [.discrete "animalType", .interval "age" 4 0]
    [[("animalType", Value.str "dog"), ("age", Value.num 2)],
     [("animalType", Value.str "dog"), ("age", Value.num 5)],
     [("animalType", Value.str "cat"), ("age", Value.num 1)]]
    [([KeyValue.disc (Value.str "dog"), KeyValue.num 0], 1),
     ([KeyValue.disc (Value.str "dog"), KeyValue.num 4], 1),
     ([KeyValue.disc (Value.str "cat"), KeyValue.num 0], 1)]
    ([KeyValue.disc (Value.str "dog"), KeyValue.num 0], 1)
    (by decide) (by decide)

/-- Claim C6: aggregate-spec normalization is idempotent -- whenever
normalize accepts a raw spec, normalizing the output again succeeds and is a
no-op -- and it fails with a ValidationError on malformed input (here a
non-positive interval); it is pure and deterministic, being a function. -/
theorem c6_normalize_idempotent :
    (∀ x y : RawAggregate,
        normalizeAggregate x = .ok y → normalizeAggregate y = .ok y) ∧
    normalizeAggregate
      { type := some "group",
        groupBy := some (.clause { field := "age", interval := some 0 }) } =
      .error .nonPositiveInterval := by
  constructor
  · intro x y h
    simp only [normalizeAggregate] at h
    cases hv : validateAggregate (canonAggregate x) with
    | some e =>
      rw [hv] at h
      simp at h
    | none =>
      rw [hv] at h
      simp at h
      subst h
      simp only [normalizeAggregate, canonAggregate_idem, hv]
  · decide

/-- Witness for C6: normalizing the already-normalized form of the
bare-string stats shorthand is a no-op. -/
theorem c6_normalize_idempotent_witness :
    normalizeAggregate
      { type := some "stats",
        stats := some (.fields [("animalType", { count := true })]) } =
    .ok { type := some "stats",
          stats := some (.fields [("animalType", { count := true })]) } :=
  c6_normalize_idempotent.1 { stats := some (.str "animalType") } _ (by decide)

/-- Claim C7: for a stats aggregate requesting count on field F, the
rendered count equals the number of records whose value at F is
non-null/present, and the result is identical for every permutation of the
record arrival order. -/
theorem c7_count_order_independent (f : String) :
    (∀ rs : List Record,
        renderCount f rs = (rs.filter (fun r => !(getField r f).isNull)).length) ∧
    (∀ rs rs2 : List Record, rs.Perm rs2 → renderCount f rs = renderCount f rs2) := by
  constructor
  · exact renderCount_eq_filter f
  · intro rs rs2 hp
    rw [renderCount_eq_filter, renderCount_eq_filter]
    exact (hp.filter _).length_eq

/-- Witness for C7: a concrete three-record permutation pair with one null
and one missing value. -/
theorem c7_count_order_independent_witness :
    renderCount "age" [[("age", Value.num 1)], [], [("age", Value.null)]] =
      renderCount "age" [[("age", Value.null)], [("age", Value.num 1)], []] :=
  (c7_count_order_independent "age").2 _ _ (by decide)

/-- Claim C8: an aggregate invocation on a malformed spec fails with the
normalizer's ValidationError regardless of the record sequence (fail-fast,
before any record is consumed), and a record whose field value cannot be
bucketed under a clause's assumed type makes the whole invocation fail with
a TypeMismatchError instead of being silently skipped. -/
theorem c8_failfast_and_fatal_type_mismatch :
    (∀ (raw : RawAggregate) (e : ValidationError),
        normalizeAggregate raw = .error e →
        ∀ records : List Record,
          runAggregate raw records = .error (.validation e)) ∧
    runAggregate
      { type := some "group",
        groupBy := some (.clause { field := "age", interval := some 4 }),
        total := true }
      [[("age", Value.num 2)], [("age", Value.str "two")], [("age", Value.num 5)]] =
      .error (.typeMismatch "age") := by
  constructor
  · intro raw e h records
    simp only [runAggregate, h]
  · decide

/-- Witness for C8: the non-positive-interval spec fails with its
ValidationError on a non-empty record list. -/
theorem c8_failfast_witness :
    runAggregate
      { type := some "group",
        groupBy := some (.clause { field := "age", interval := some 0 }) }
      [[("age", Value.num 1)]] =
    .error (.validation .nonPositiveInterval) :=
  c8_failfast_and_fatal_type_mismatch.1 _ .nonPositiveInterval (by decide) _

/-- Claim C9: `find` and `findStream` are mutually defaulted by prototype
inspection: a subclass overriding `findStream` but not `find` gets a default
`find` that collects the stream into an array; one overriding `find` but not
`findStream` gets a default `findStream` wrapping `find` in a fake document
stream; and with neither overridden, calling `find` throws an
UNSUPPORTED_OPERATION XError rather than recursing infinitely (collecting
the default stream likewise surfaces that error). -/
theorem c9_find_findStream_delegation (Query Doc : Type) :
    (∀ (fs : Query → FindOptions → DocumentStreamModel Doc) (q : Query)
        (o : FindOptions), o.total = false →
        ModelImpl.find { findImpl := none, findStreamImpl := some fs } q o =
          .ok (.docs (fs q o).docs)) ∧
    (∀ (f : Query → FindOptions → Except XErr (List Doc)) (q : Query)
        (o : FindOptions),
        ModelImpl.findStreamCollect { findImpl := some f, findStreamImpl := none } q o =
          f q o) ∧
    (∀ (q : Query) (o : FindOptions),
        ModelImpl.find ({ findImpl := none, findStreamImpl := none } : ModelImpl Query Doc) q o =
          .error .unsupportedOperation ∧
        ModelImpl.findStreamCollect
            ({ findImpl := none, findStreamImpl := none } : ModelImpl Query Doc) q o =
          .error .unsupportedOperation) := by
  refine ⟨?_, ?_, ?_⟩
  · intro fs q o ho
    simp [ModelImpl.find, ho]
  · intro f q o
    simp [ModelImpl.findStreamCollect]
  · intro q o
    exact ⟨rfl, rfl⟩

/-- Witness for C9 at a one-document stream over trivial query and options. -/
theorem c9_find_findStream_delegation_witness :
    ModelImpl.find
      ({ findImpl := none,
         findStreamImpl := some fun _ _ => ⟨[7], 1⟩ } : ModelImpl Unit Nat) () {} =
      .ok (.docs [7]) :=
  (c9_find_findStream_delegation Unit Nat).1 (fun _ _ => ⟨[7], 1⟩) () {} rfl

/-- Claim C10: in the default `find` (taken when `findStream` is overridden
but `find` is not), a truthy `options.total` makes the returned promise
resolve with the numeric total obtained from the stream's `getTotal()`, not
with the document array carrying a total property; only with a falsy
`options.total` does it resolve with the document array. -/
theorem c10_default_find_total_resolution (Query Doc : Type)
    (fs : Query → FindOptions → DocumentStreamModel Doc) (q : Query)
    (o : FindOptions) :
    (o.total = true →
      ModelImpl.find { findImpl := none, findStreamImpl := some fs } q o =
        .ok (.totalNum (fs q o).getTotal)) ∧
    (o.total = false →
      ModelImpl.find { findImpl := none, findStreamImpl := some fs } q o =
        .ok (.docs (fs q o).docs)) := by
  constructor
  · intro ho
    simp [ModelImpl.find, ho]
  · intro ho
    simp [ModelImpl.find, ho]

/-- Witness for C10: a two-document stream with stream total 42 resolves to
the bare number 42 when totals are requested. -/
theorem c10_default_find_total_resolution_witness :
    ModelImpl.find
      ({ findImpl := none,
         findStreamImpl := some fun _ _ => ⟨[5, 6], 42⟩ } : ModelImpl Unit Nat)
      () { total := true } =
      .ok (.totalNum 42) :=
  (c10_default_find_total_resolution Unit Nat (fun _ _ => ⟨[5, 6], 42⟩) ()
    { total := true }).1 rfl
